import Mathlib

/-!
Verification of the wiki top-articles pipeline (`src/refactoring_code.py`,
`src/sample_code.py`).

Shallow embedding conventions:
* calendar days are `Nat` (consecutive integers, matching `pd.date_range`);
* article identifiers are `Nat` (pandas sorts group keys by the article key;
  only the order matters);
* a dataframe row of the (article, views, date) table is `Row`; the `views`
  cell is `Option Nat`, `none` standing for pandas `NaN`;
* the HTTP layer is an oracle function passed explicitly; `time.sleep` and
  requests are recorded as events.
-/

set_option maxHeartbeats 1000000

namespace Wiki

/-- `MAX_RETRIES = 3` from the source. -/
def MAX_RETRIES : Nat := 3

/-- `TOP_ARTICLES = 20` from the source. -/
def TOP_ARTICLES : Nat := 20

/-- One row of the observations dataframe: columns `article`, `views`, `date`.
`views = none` models a pandas `NaN` cell (introduced by `reindex`). -/
structure Row where
  article : Nat
  views : Option Nat
  date : Nat
deriving DecidableEq, Repr

/-- One forward-fill step: a present cell replaces the accumulator,
a missing cell keeps it (`Series.ffill`). -/
def step (acc v : Option Nat) : Option Nat :=
  match v with
  | some x => some x
  | none => acc

/-- `Series.ffill` with carried-in accumulator `acc` (initially `none`):
each `none` cell takes the nearest prior non-`none` value. -/
def ffillAux (acc : Option Nat) : List (Option Nat) → List (Option Nat)
  | [] => []
  | v :: vs => step acc v :: ffillAux (step acc v) vs

/-- Helper for `uniqueFirst`; the fuel argument (any bound on the list
length) makes the recursion structural. -/
def uniqueFirstAux : Nat → List Nat → List Nat
  | 0, _ => []
  | _, [] => []
  | fuel + 1, a :: l => a :: uniqueFirstAux fuel (l.filter (fun b => decide (b ≠ a)))

/-- `pandas.Series.unique`: distinct values in first-appearance order. -/
def uniqueFirst (l : List Nat) : List Nat := uniqueFirstAux l.length l

/-- `df["date"].min()` (caller guarantees a nonempty frame; `0` is a junk
default for the empty frame, on which the pipeline is never run). -/
def minDate : List Row → Nat
  | [] => 0
  | r :: rs => rs.foldl (fun m s => Nat.min m s.date) r.date

/-- `df["date"].max()`. -/
def maxDate : List Row → Nat
  | [] => 0
  | r :: rs => rs.foldl (fun m s => Nat.max m s.date) r.date

/-- Length of `pd.date_range(df["date"].min(), df["date"].max())`. -/
def numDays (t : List Row) : Nat := maxDate t + 1 - minDate t

/-- The cell the `reindex` grid places at `(a, d)`: the `views` value of the
(unique, per the raw-table invariant) raw row for article `a` and date `d`,
`none` when no such row exists. -/
def rawLookup (t : List Row) (a d : Nat) : Option Nat :=
  match t.find? (fun r => r.article == a && r.date == d) with
  | some r => r.views
  | none => none

/-- Article `a`'s column of the dense grid after
`groupby("article")["views"].transform(lambda x: x.ffill())`:
its raw cells over the full date range, forward-filled in date order. -/
def articleSeriesFilled (t : List Row) (a : Nat) : List (Option Nat) :=
  ffillAux none ((List.range (numDays t)).map (fun i => rawLookup t a (minDate t + i)))

/-- The block of dense rows `reindex` produces for article `a`:
one row per day of the range, in chronological order, with the
forward-filled views. -/
def blockOf (t : List Row) (a : Nat) : List Row :=
  (List.range (numDays t)).map (fun i =>
    { article := a, views := (articleSeriesFilled t a).getD i none,
      date := minDate t + i })

/-- `df["article"].unique()` of a frame. -/
def articlesOf (t : List Row) : List Nat := uniqueFirst (t.map (fun r => r.article))

/-- The dense, forward-filled frame after `set_index`/`reindex`/`ffill`:
the grid `MultiIndex.from_product` orders rows article-major
(articles in first-appearance order, dates ascending inside each block). -/
def normalizeDense (t : List Row) : List Row :=
  (articlesOf t).flatMap (fun a => blockOf t a)

/-- Last non-`none` entry of a series (`GroupBy.last` skips `NaN`). -/
def lastNonNone (l : List (Option Nat)) : Option Nat :=
  l.foldl step none

/-- `groupby` sorts the group keys ascending. -/
def sortedArticles (t : List Row) : List Nat :=
  List.insertionSort (· ≤ ·) (articlesOf t)

/-- `last_values = df.groupby("article")["views"].last()`: one `(article,
last views)` pair per article key (ascending); articles whose whole
forward-filled series is `NaN` are skipped, as `Series.nlargest` drops them. -/
def lastValues (t : List Row) : List (Nat × Nat) :=
  (sortedArticles t).filterMap
    (fun a => (lastNonNone (articleSeriesFilled t a)).map (fun v => (a, v)))

/-- Comparison used by `nlargest`: descending by the views value. -/
def descVal (p q : Nat × Nat) : Prop := q.2 ≤ p.2

instance : DecidableRel descVal := fun p q => Nat.decLe q.2 p.2

instance : IsTotal (Nat × Nat) descVal := ⟨fun a b => Nat.le_total b.2 a.2⟩

instance : IsTrans (Nat × Nat) descVal := ⟨fun _ _ _ h1 h2 => Nat.le_trans h2 h1⟩

/-- `Series.nlargest(N)`: stable descending sort by value, first `N` kept
(`keep="first"`). -/
def nlargest (N : Nat) (l : List (Nat × Nat)) : List (Nat × Nat) :=
  (List.insertionSort descVal l).take N

/-- `top_articles.index` for `process_wiki_data` with cutoff `N`. -/
def topArticlesN (t : List Row) (N : Nat) : List Nat :=
  (nlargest N (lastValues t)).map Prod.fst

/-- `process_wiki_data` parameterized by the top-`N` cutoff: dense grid,
forward-fill, then `df[df["article"].isin(top_articles.index)]`. -/
def processWikiDataN (t : List Row) (N : Nat) : List Row :=
  (normalizeDense t).filter (fun r => (topArticlesN t N).contains r.article)

/-- `process_wiki_data` from the source (`TOP_ARTICLES = 20`). -/
def processWikiData (t : List Row) : List Row := processWikiDataN t TOP_ARTICLES

/-- The articles the top-N filter keeps, in their grid (first-appearance)
order. -/
def selArts (t : List Row) (N : Nat) : List Nat :=
  (articlesOf t).filter (fun a => (topArticlesN t N).contains a)

/-- Float addition into `views_sum[article]`: adding a `NaN` cell poisons the
whole running sum. -/
def addOpt (acc v : Option Nat) : Option Nat :=
  match acc, v with
  | some s, some x => some (s + x)
  | _, _ => none

/-- `views_sum[article]` accumulated over the article's rows of the top frame. -/
def viewsSum (top : List Row) (a : Nat) : Option Nat :=
  ((top.filter (fun r => r.article == a)).map (fun r => r.views)).foldl addOpt (some 0)

/-- `count[article]`: every row of the article counts, `NaN` rows included. -/
def rowCount (top : List Row) (a : Nat) : Nat :=
  (top.filter (fun r => r.article == a)).length

/-- `views_sum[article] / count[article]` (`none` when the sum is `NaN`). -/
def meanOf (top : List Row) (a : Nat) : Option ℚ :=
  (viewsSum top a).map (fun s => (s : ℚ) / (rowCount top a : ℚ))

/-- Python `int(...)`: truncation toward zero. -/
def ratTrunc (q : ℚ) : Int :=
  if q < 0 then -(Int.floor (-q)) else Int.floor q

/-- `int(np.nanmean(...))` applied to the per-article means whose value is
defined (`np.nanmean` skips `NaN` entries). -/
def nanmeanTrunc (means : List ℚ) : Int :=
  ratTrunc (means.sum / (means.length : ℚ))

/-- `df["views"].max()` over the raw frame (`NaN`-skipping, as pandas). -/
def maxViews (t : List Row) : Nat :=
  (t.filterMap (fun r => r.views)).foldl Nat.max 0

/-- `calculate_statistics(df, df_top_articles)`:
`(mean_views, max_views, unique_articles)`. -/
def calculateStatistics (t top : List Row) : Int × Nat × Nat :=
  (nanmeanTrunc ((articlesOf top).filterMap (fun a => meanOf top a)),
   maxViews t,
   (articlesOf t).length)

/-- The rows one day's API answer contributes: one per article of the
response, tagged with the day's date; a failed day contributes none.
`fetch d = none` models `get_top_wiki_articles` returning `None` (or a body
with no `items`); `fetch d = some arts` models a parsed body whose first
item holds `arts` as its `(article, views)` list. -/
def dayRows (fetch : Nat → Option (List (Nat × Nat))) (d : Nat) : List Row :=
  match fetch d with
  | some arts => arts.map (fun p => { article := p.1, views := some p.2, date := d })
  | none => []

/-- `collect_wiki_data(start, end)`: one API call per day from `startD` to
`endD` inclusive; a day with data appends one row per returned article,
a failed or empty day appends nothing; an entirely empty frame raises. -/
def collectWikiData (fetch : Nat → Option (List (Nat × Nat))) (startD endD : Nat) :
    Except String (List Row) :=
  let rows := (List.range' startD (endD + 1 - startD)).flatMap (dayRows fetch)
  if rows.isEmpty then Except.error "no data collected" else Except.ok rows

/-- `validate_dates(start_date, end_date)` with the current time `now`. -/
def validateDates (startD endD now : Nat) : Except String Unit :=
  if endD < startD then Except.error "start date after end date"
  else if now < startD then Except.error "start date in the future"
  else Except.ok ()

/-- `main` after argument parsing: validation, collection, processing,
statistics. The second component is the trace of days for which the network
is consulted (empty when validation fails, the whole range afterwards, since
`collect_wiki_data` performs one `get_top_wiki_articles` call per day). -/
def mainRun (fetch : Nat → Option (List (Nat × Nat))) (now startD endD : Nat) :
    Except String (List Row × (Int × Nat × Nat)) × List Nat :=
  match validateDates startD endD now with
  | Except.error e => (Except.error e, [])
  | Except.ok _ =>
    let calls := List.range' startD (endD + 1 - startD)
    match collectWikiData fetch startD endD with
    | Except.error e => (Except.error e, calls)
    | Except.ok raw =>
      let top := processWikiData raw
      (Except.ok (top, calculateStatistics raw top), calls)

/-- Outcome of one HTTP attempt inside `get_top_wiki_articles`. -/
inductive Attempt where
  | ok (arts : List (Nat × Nat))
  | rateLimited
  | transportFail
deriving DecidableEq, Repr

/-- Observable actions of the retry loop. -/
inductive Event where
  | request (i : Nat)
  | sleepFor (t : Nat)
deriving DecidableEq, Repr

/-- Is the attempt outcome a success? -/
def Attempt.isOk : Attempt → Bool
  | Attempt.ok _ => true
  | _ => false

/-- Is the event an HTTP request? -/
def Event.isRequest : Event → Bool
  | Event.request _ => true
  | _ => false

/-- The `for retr in range(MAX_RETRIES)` loop of `get_top_wiki_articles`,
from attempt index `retr` with `fuel` iterations left. A 429 waits
`2 ** retr + 1` and continues; a `RequestException` waits `1` second unless
this was the last attempt; success returns the parsed body at once. -/
def attemptFrom (oracle : Nat → Attempt) :
    Nat → Nat → Option (List (Nat × Nat)) × List Event
  | _, 0 => (none, [])
  | retr, fuel + 1 =>
    match oracle retr with
    | Attempt.ok arts => (some arts, [Event.request retr])
    | Attempt.rateLimited =>
      let rest := attemptFrom oracle (retr + 1) fuel
      (rest.1, Event.request retr :: Event.sleepFor (2 ^ retr + 1) :: rest.2)
    | Attempt.transportFail =>
      let rest := attemptFrom oracle (retr + 1) fuel
      if retr < MAX_RETRIES - 1 then
        (rest.1, Event.request retr :: Event.sleepFor 1 :: rest.2)
      else
        (rest.1, Event.request retr :: rest.2)

/-- `get_top_wiki_articles` for one day: result (`none` when every attempt
failed) paired with the trace of requests and sleeps. -/
def getTopWikiArticles (oracle : Nat → Attempt) :
    Option (List (Nat × Nat)) × List Event :=
  attemptFrom oracle 0 MAX_RETRIES

/-- Last non-`none` value among `g 0, …, g (n-1)`: the specification-side
description of what a forward-filled cell holds. -/
def scanBack (g : Nat → Option Nat) : Nat → Option Nat
  | 0 => none
  | n + 1 => step (scanBack g n) (g n)

/-! ### Concrete tables used by the examples of the claims -/

/-- One article observed on days 1 and 3 of a 3-day window (views 10, 30). -/
def exSingle : List Row := [⟨0, some 10, 1⟩, ⟨0, some 30, 3⟩]

/-- Raw dataset {(A,100,day1), (B,50,day1), (A,120,day2)} with A = 0, B = 1. -/
def exTwoDay : List Row := [⟨0, some 100, 1⟩, ⟨1, some 50, 1⟩, ⟨0, some 120, 2⟩]

/-- The dense top table `process_wiki_data` builds from `exTwoDay` at N = 2. -/
def exTwoDayTop : List Row :=
  [⟨0, some 100, 1⟩, ⟨0, some 120, 2⟩, ⟨1, some 50, 1⟩, ⟨1, some 50, 2⟩]

/-- Two articles over two days; article 1 holds the global maximum 100 but
article 0 has the larger last value. -/
def exOutlier : List Row :=
  [⟨0, some 5, 1⟩, ⟨0, some 7, 2⟩, ⟨1, some 100, 1⟩, ⟨1, some 6, 2⟩]

/-- A dense, forward-filled, grid-ordered one-day table with 21 distinct
articles — one more than `TOP_ARTICLES`. -/
def exWide : List Row := (List.range 21).map (fun i => ⟨i, some (100 - i), 0⟩)

/-! ### Forward-fill lemmas -/

theorem step_none (v : Option Nat) : step none v = v := by
  cases v <;> rfl

theorem step_step (a v : Option Nat) : step a (step a v) = step a v := by
  cases v <;> cases a <;> rfl

theorem step_assoc (a b v : Option Nat) : step (step a b) v = step a (step b v) := by
  cases v <;> cases b <;> rfl

@[simp] theorem length_ffillAux (acc : Option Nat) (l : List (Option Nat)) :
    (ffillAux acc l).length = l.length := by
  induction l generalizing acc with
  | nil => rfl
  | cons v vs ih => simp [ffillAux, ih]

theorem ffillAux_getD (l : List (Option Nat)) (acc : Option Nat) (i : Nat)
    (h : i < l.length) :
    (ffillAux acc l).getD i none = (l.take (i + 1)).foldl step acc := by
  induction l generalizing acc i with
  | nil => simp at h
  | cons v vs ih =>
    cases i with
    | zero => simp [ffillAux, List.getD]
    | succ j =>
      have hj : j < vs.length := by simpa using Nat.lt_of_succ_lt_succ h
      simp only [ffillAux, List.take_succ_cons, List.foldl_cons]
      simpa [List.getD] using ih (step acc v) j hj

theorem foldl_step_ffillAux (l : List (Option Nat)) (a : Option Nat) :
    (ffillAux a l).foldl step a = l.foldl step a := by
  induction l generalizing a with
  | nil => rfl
  | cons v vs ih =>
    simp only [ffillAux, List.foldl_cons]
    rw [step_step, ih (step a v)]

theorem ffillAux_idem (l : List (Option Nat)) (a : Option Nat) :
    ffillAux a (ffillAux a l) = ffillAux a l := by
  induction l generalizing a with
  | nil => rfl
  | cons v vs ih =>
    simp only [ffillAux]
    rw [step_step, ih (step a v)]

/-! ### Backward-scan characterization of forward fill -/

theorem foldl_step_range (g : Nat → Option Nat) (acc : Option Nat) (n : Nat) :
    ((List.range n).map g).foldl step acc = step acc (scanBack g n) := by
  induction n with
  | zero => rfl
  | succ m ih =>
    rw [List.range_succ, List.map_append, List.foldl_append, ih]
    simp only [List.map_cons, List.map_nil, List.foldl_cons, List.foldl_nil, scanBack]
    exact (step_assoc acc (scanBack g m) (g m))

theorem scanBack_eq_none (g : Nat → Option Nat) (n : Nat) :
    scanBack g n = none ↔ ∀ j, j < n → g j = none := by
  induction n with
  | zero => simp [scanBack]
  | succ m ih =>
    constructor
    · intro h j hj
      rcases hgm : g m with _ | x
      · rcases Nat.lt_succ_iff_lt_or_eq.mp hj with hlt | rfl
        · exact ih.mp (by simpa [scanBack, hgm, step] using h) j hlt
        · exact hgm
      · simp [scanBack, hgm, step] at h
    · intro h
      have hm : g m = none := h m (Nat.lt_succ_self m)
      have : scanBack g m = none := ih.mpr (fun j hj => h j (Nat.lt_succ_of_lt hj))
      simp [scanBack, hm, step, this]

theorem scanBack_eq_some (g : Nat → Option Nat) (n : Nat) (v : Nat) :
    scanBack g n = some v ↔
      ∃ j, j < n ∧ g j = some v ∧ ∀ k, j < k → k < n → g k = none := by
  induction n with
  | zero => simp [scanBack]
  | succ m ih =>
    rcases hgm : g m with _ | x
    · constructor
      · intro h
        have h' : scanBack g m = some v := by simpa [scanBack, hgm, step] using h
        rcases ih.mp h' with ⟨j, hj, hgj, hafter⟩
        refine ⟨j, Nat.lt_succ_of_lt hj, hgj, ?_⟩
        intro k hk hk'
        rcases Nat.lt_succ_iff_lt_or_eq.mp hk' with hlt | rfl
        · exact hafter k hk hlt
        · exact hgm
      · rintro ⟨j, hj, hgj, hafter⟩
        have hjm : j < m := by
          rcases Nat.lt_succ_iff_lt_or_eq.mp hj with hlt | rfl
          · exact hlt
          · rw [hgj] at hgm; cases hgm
        have h' : scanBack g m = some v :=
          ih.mpr ⟨j, hjm, hgj, fun k hk hk' => hafter k hk (Nat.lt_succ_of_lt hk')⟩
        simp [scanBack, hgm, step, h']
    · constructor
      · intro h
        have hvx : x = v := by simpa [scanBack, hgm, step] using h
        exact ⟨m, Nat.lt_succ_self m, by rw [hgm, hvx], by omega⟩
      · rintro ⟨j, hj, hgj, hafter⟩
        have hjm : j = m := by
          by_contra hne
          have : j < m := by omega
          have := hafter m this (Nat.lt_succ_self m)
          rw [this] at hgm; cases hgm
        subst hjm
        simp [scanBack, step, hgj]

/-! ### `uniqueFirst` lemmas -/

theorem uniqueFirstAux_fuel_irrel :
    ∀ (f1 f2 : Nat) (l : List Nat), l.length ≤ f1 → l.length ≤ f2 →
      uniqueFirstAux f1 l = uniqueFirstAux f2 l := by
  intro f1
  induction f1 with
  | zero =>
    intro f2 l h1 _
    have : l = [] := List.eq_nil_of_length_eq_zero (Nat.le_zero.mp h1)
    subst this
    cases f2 <;> rfl
  | succ f ih =>
    intro f2 l h1 h2
    match l with
    | [] => cases f2 <;> rfl
    | a :: l' =>
      match f2 with
      | g + 1 =>
        simp only [uniqueFirstAux]
        have hlen : (l'.filter (fun b => decide (b ≠ a))).length ≤ l'.length :=
          List.length_filter_le _ _
        have h1' : (l'.filter (fun b => decide (b ≠ a))).length ≤ f :=
          Nat.le_trans hlen (Nat.le_of_succ_le_succ h1)
        have h2' : (l'.filter (fun b => decide (b ≠ a))).length ≤ g :=
          Nat.le_trans hlen (Nat.le_of_succ_le_succ h2)
        rw [ih g _ h1' h2']

theorem uniqueFirst_nil : uniqueFirst [] = [] := rfl

theorem uniqueFirst_cons (a : Nat) (l : List Nat) :
    uniqueFirst (a :: l) = a :: uniqueFirst (l.filter (fun b => decide (b ≠ a))) := by
  unfold uniqueFirst
  simp only [List.length_cons, uniqueFirstAux]
  rw [uniqueFirstAux_fuel_irrel l.length (l.filter (fun b => decide (b ≠ a))).length _
    (List.length_filter_le _ _) (Nat.le_refl _)]

theorem mem_uniqueFirst (l : List Nat) (b : Nat) : b ∈ uniqueFirst l ↔ b ∈ l := by
  have key : ∀ (fuel : Nat) (l : List Nat), l.length ≤ fuel →
      (b ∈ uniqueFirstAux fuel l ↔ b ∈ l) := by
    intro fuel
    induction fuel with
    | zero =>
      intro l h
      have : l = [] := List.eq_nil_of_length_eq_zero (Nat.le_zero.mp h)
      subst this
      simp [uniqueFirstAux]
    | succ f ih =>
      intro l h
      match l with
      | [] => simp [uniqueFirstAux]
      | a :: l' =>
        simp only [uniqueFirstAux, List.mem_cons]
        have h' : (l'.filter (fun c => decide (c ≠ a))).length ≤ f :=
          Nat.le_trans (List.length_filter_le _ _) (Nat.le_of_succ_le_succ h)
        rw [ih _ h']
        by_cases hba : b = a
        · subst hba; simp
        · simp only [List.mem_filter]
          constructor
          · rintro (rfl | ⟨hb, _⟩)
            · exact Or.inl rfl
            · exact Or.inr hb
          · rintro (rfl | hb)
            · exact Or.inl rfl
            · exact Or.inr ⟨hb, by simpa using hba⟩
  exact key l.length l (Nat.le_refl _)

theorem nodup_uniqueFirst (l : List Nat) : (uniqueFirst l).Nodup := by
  have key : ∀ (fuel : Nat) (l : List Nat), l.length ≤ fuel →
      (uniqueFirstAux fuel l).Nodup := by
    intro fuel
    induction fuel with
    | zero => intro l _; simp [uniqueFirstAux]
    | succ f ih =>
      intro l h
      match l with
      | [] => exact List.nodup_nil
      | a :: l' =>
        simp only [uniqueFirstAux]
        have h' : (l'.filter (fun c => decide (c ≠ a))).length ≤ f :=
          Nat.le_trans (List.length_filter_le _ _) (Nat.le_of_succ_le_succ h)
        refine List.Nodup.cons ?_ (ih _ h')
        have hirr : uniqueFirstAux f (l'.filter (fun c => decide (c ≠ a))) =
            uniqueFirst (l'.filter (fun c => decide (c ≠ a))) :=
          uniqueFirstAux_fuel_irrel f _ _ h' (Nat.le_refl _)
        rw [hirr, mem_uniqueFirst]
        intro hmem
        have := (List.mem_filter.mp hmem).2
        simp at this
  exact key l.length l (Nat.le_refl _)

theorem uniqueFirst_flatMap_replicate (n : Nat) (hn : n ≠ 0) :
    ∀ (as : List Nat), as.Nodup →
      uniqueFirst (as.flatMap (fun a => List.replicate n a)) = as := by
  intro as
  induction as with
  | nil => intro _; rfl
  | cons a as ih =>
    intro hnd
    have hna : a ∉ as := (List.nodup_cons.mp hnd).1
    have hnd' : as.Nodup := (List.nodup_cons.mp hnd).2
    obtain ⟨m, rfl⟩ : ∃ m, n = m + 1 := ⟨n - 1, by omega⟩
    rw [List.flatMap_cons, List.replicate_succ, List.cons_append, uniqueFirst_cons]
    congr 1
    have hfilter :
        (List.replicate m a ++ as.flatMap (fun b => List.replicate (m + 1) b)).filter
            (fun b => decide (b ≠ a)) =
          as.flatMap (fun b => List.replicate (m + 1) b) := by
      rw [List.filter_append]
      have h1 : (List.replicate m a).filter (fun b => decide (b ≠ a)) = [] := by
        apply List.filter_eq_nil_iff.mpr
        intro x hx
        have := List.eq_of_mem_replicate hx
        simp [this]
      have h2 : (as.flatMap (fun b => List.replicate (m + 1) b)).filter
          (fun b => decide (b ≠ a)) = as.flatMap (fun b => List.replicate (m + 1) b) := by
        apply List.filter_eq_self.mpr
        intro x hx
        rcases List.mem_flatMap.mp hx with ⟨b, hb, hxb⟩
        have := List.eq_of_mem_replicate hxb
        subst this
        have : x ≠ a := fun h => hna (h ▸ hb)
        simpa using this
      rw [h1, h2, List.nil_append]
    rw [hfilter]
    exact ih hnd'

/-! ### Min/max fold lemmas -/

theorem foldl_min_le_init (l : List Nat) (a : Nat) : l.foldl Nat.min a ≤ a := by
  induction l generalizing a with
  | nil => exact Nat.le_refl a
  | cons x xs ih => exact Nat.le_trans (ih (Nat.min a x)) (Nat.min_le_left a x)

theorem foldl_min_le_mem (l : List Nat) (a : Nat) :
    ∀ x ∈ l, l.foldl Nat.min a ≤ x := by
  induction l generalizing a with
  | nil => intro x hx; cases hx
  | cons y ys ih =>
    intro x hx
    rcases List.mem_cons.mp hx with rfl | hx'
    · exact Nat.le_trans (foldl_min_le_init ys (Nat.min a x)) (Nat.min_le_right a x)
    · exact ih (Nat.min a y) x hx'

theorem foldl_min_mem (l : List Nat) (a : Nat) :
    l.foldl Nat.min a = a ∨ l.foldl Nat.min a ∈ l := by
  induction l generalizing a with
  | nil => exact Or.inl rfl
  | cons y ys ih =>
    rcases ih (Nat.min a y) with h | h
    · by_cases hay : a ≤ y
      · exact Or.inl (by simpa [Nat.min_eq_left hay] using h)
      · have hm : Nat.min a y = y := Nat.min_eq_right (Nat.le_of_not_le hay)
        exact Or.inr (by simp [List.foldl_cons, hm ▸ h, hm])
    · exact Or.inr (List.mem_cons_of_mem y h)

theorem init_le_foldl_max (l : List Nat) (a : Nat) : a ≤ l.foldl Nat.max a := by
  induction l generalizing a with
  | nil => exact Nat.le_refl a
  | cons x xs ih => exact Nat.le_trans (Nat.le_max_left a x) (ih (Nat.max a x))

theorem foldl_max_le_mem (l : List Nat) (a : Nat) :
    ∀ x ∈ l, x ≤ l.foldl Nat.max a := by
  induction l generalizing a with
  | nil => intro x hx; cases hx
  | cons y ys ih =>
    intro x hx
    rcases List.mem_cons.mp hx with rfl | hx'
    · exact Nat.le_trans (Nat.le_max_right a x) (init_le_foldl_max ys (Nat.max a x))
    · exact ih (Nat.max a y) x hx'

theorem foldl_max_mem (l : List Nat) (a : Nat) :
    l.foldl Nat.max a = a ∨ l.foldl Nat.max a ∈ l := by
  induction l generalizing a with
  | nil => exact Or.inl rfl
  | cons y ys ih =>
    rcases ih (Nat.max a y) with h | h
    · by_cases hya : y ≤ a
      · exact Or.inl (by simpa [Nat.max_eq_left hya] using h)
      · have hm : Nat.max a y = y := Nat.max_eq_right (Nat.le_of_not_le hya)
        exact Or.inr (by simp [List.foldl_cons, hm ▸ h, hm])
    · exact Or.inr (List.mem_cons_of_mem y h)

theorem minDate_cons (r : Row) (rs : List Row) :
    minDate (r :: rs) = (rs.map (fun x => x.date)).foldl Nat.min r.date := by
  simp [minDate, List.foldl_map]

theorem maxDate_cons (r : Row) (rs : List Row) :
    maxDate (r :: rs) = (rs.map (fun x => x.date)).foldl Nat.max r.date := by
  simp [maxDate, List.foldl_map]

theorem minDate_le (t : List Row) (r : Row) (hr : r ∈ t) : minDate t ≤ r.date := by
  match t with
  | s :: rs =>
    rw [minDate_cons]
    rcases List.mem_cons.mp hr with rfl | hr'
    · exact foldl_min_le_init _ _
    · exact foldl_min_le_mem (rs.map (fun x => x.date)) s.date r.date
        (List.mem_map_of_mem (fun x => x.date) hr')

theorem le_maxDate (t : List Row) (r : Row) (hr : r ∈ t) : r.date ≤ maxDate t := by
  match t with
  | s :: rs =>
    rw [maxDate_cons]
    rcases List.mem_cons.mp hr with rfl | hr'
    · exact init_le_foldl_max _ _
    · exact foldl_max_le_mem (rs.map (fun x => x.date)) s.date r.date
        (List.mem_map_of_mem (fun x => x.date) hr')

theorem minDate_mem (t : List Row) (ht : t ≠ []) : ∃ r ∈ t, r.date = minDate t := by
  match t with
  | s :: rs =>
    rw [minDate_cons]
    rcases foldl_min_mem (rs.map (fun x => x.date)) s.date with h | h
    · exact ⟨s, List.mem_cons_self s rs, h.symm⟩
    · rcases List.mem_map.mp h with ⟨r, hr, hrd⟩
      exact ⟨r, List.mem_cons_of_mem s hr, hrd⟩

theorem maxDate_mem (t : List Row) (ht : t ≠ []) : ∃ r ∈ t, r.date = maxDate t := by
  match t with
  | s :: rs =>
    rw [maxDate_cons]
    rcases foldl_max_mem (rs.map (fun x => x.date)) s.date with h | h
    · exact ⟨s, List.mem_cons_self s rs, h.symm⟩
    · rcases List.mem_map.mp h with ⟨r, hr, hrd⟩
      exact ⟨r, List.mem_cons_of_mem s hr, hrd⟩

theorem minDate_eq (t : List Row) (x : Nat) (ht : t ≠ [])
    (hmem : ∃ r ∈ t, r.date = x) (hle : ∀ r ∈ t, x ≤ r.date) : minDate t = x := by
  rcases hmem with ⟨r, hr, rfl⟩
  rcases minDate_mem t ht with ⟨s, hs, hsd⟩
  exact Nat.le_antisymm (minDate_le t r hr) (hsd ▸ hle s hs)

theorem maxDate_eq (t : List Row) (x : Nat) (ht : t ≠ [])
    (hmem : ∃ r ∈ t, r.date = x) (hle : ∀ r ∈ t, r.date ≤ x) : maxDate t = x := by
  rcases hmem with ⟨r, hr, rfl⟩
  rcases maxDate_mem t ht with ⟨s, hs, hsd⟩
  exact Nat.le_antisymm (hsd ▸ hle s hs) (le_maxDate t r hr)

theorem minDate_le_maxDate (t : List Row) (ht : t ≠ []) : minDate t ≤ maxDate t := by
  rcases minDate_mem t ht with ⟨r, hr, hrd⟩
  exact hrd ▸ le_maxDate t r hr

theorem numDays_pos (t : List Row) (ht : t ≠ []) : 0 < numDays t := by
  have := minDate_le_maxDate t ht
  unfold numDays
  omega

/-! ### Series lemmas -/

@[simp] theorem length_articleSeriesFilled (t : List Row) (a : Nat) :
    (articleSeriesFilled t a).length = numDays t := by
  simp [articleSeriesFilled]

theorem articleSeriesFilled_getD (t : List Row) (a : Nat) (i : Nat)
    (h : i < numDays t) :
    (articleSeriesFilled t a).getD i none =
      scanBack (fun j => rawLookup t a (minDate t + j)) (i + 1) := by
  unfold articleSeriesFilled
  rw [ffillAux_getD _ none i (by simpa using h)]
  rw [← List.map_take, List.take_range, Nat.min_eq_left (by omega)]
  rw [foldl_step_range, step_none]

theorem lastNonNone_articleSeriesFilled (t : List Row) (a : Nat) :
    lastNonNone (articleSeriesFilled t a) =
      scanBack (fun j => rawLookup t a (minDate t + j)) (numDays t) := by
  unfold lastNonNone articleSeriesFilled
  rw [foldl_step_ffillAux, foldl_step_range, step_none]

theorem series_some_iff (t : List Row) (a : Nat) (i : Nat) (h : i < numDays t)
    (v : Nat) :
    (articleSeriesFilled t a).getD i none = some v ↔
      ∃ j, j ≤ i ∧ rawLookup t a (minDate t + j) = some v ∧
        ∀ k, j < k → k ≤ i → rawLookup t a (minDate t + k) = none := by
  rw [articleSeriesFilled_getD t a i h, scanBack_eq_some]
  constructor <;> rintro ⟨j, hj, hgj, hafter⟩
  · exact ⟨j, Nat.lt_succ_iff.mp hj, hgj,
      fun k hk hk' => hafter k hk (Nat.lt_succ_iff.mpr hk')⟩
  · exact ⟨j, Nat.lt_succ_iff.mpr hj, hgj,
      fun k hk hk' => hafter k hk (Nat.lt_succ_iff.mp hk')⟩

theorem series_none_iff (t : List Row) (a : Nat) (i : Nat) (h : i < numDays t) :
    (articleSeriesFilled t a).getD i none = none ↔
      ∀ j, j ≤ i → rawLookup t a (minDate t + j) = none := by
  rw [articleSeriesFilled_getD t a i h, scanBack_eq_none]
  constructor <;> intro hall j hj
  · exact hall j (Nat.lt_succ_iff.mpr hj)
  · exact hall j (Nat.lt_succ_iff.mp hj)

theorem mem_articlesOf (t : List Row) (a : Nat) :
    a ∈ articlesOf t ↔ ∃ r ∈ t, r.article = a := by
  rw [articlesOf, mem_uniqueFirst, List.mem_map]

theorem nodup_articlesOf (t : List Row) : (articlesOf t).Nodup :=
  nodup_uniqueFirst _

theorem rawLookup_isSome (t : List Row) (hv : ∀ r ∈ t, (r.views).isSome)
    (r : Row) (hr : r ∈ t) : (rawLookup t r.article r.date).isSome := by
  have hp : (fun s : Row => s.article == r.article && s.date == r.date) r = true := by
    simp
  have hex : ∃ x ∈ t, (fun s : Row => s.article == r.article && s.date == r.date) x :=
    ⟨r, hr, hp⟩
  rcases List.find?_isSome.mpr hex with h
  rcases hfind : t.find? (fun s : Row => s.article == r.article && s.date == r.date)
    with _ | s
  · rw [hfind] at h; cases h
  · have hs : s ∈ t := List.mem_of_find?_eq_some hfind
    unfold rawLookup
    rw [hfind]
    exact hv s hs

/-- Every article of the raw table has, somewhere in the date range, a
non-missing grid cell (provided every raw row carries a views value, as
every collector row does). -/
theorem exists_some_cell (t : List Row) (hv : ∀ r ∈ t, (r.views).isSome)
    (a : Nat) (ha : a ∈ articlesOf t) :
    ∃ j, j < numDays t ∧ (rawLookup t a (minDate t + j)).isSome := by
  rcases (mem_articlesOf t a).mp ha with ⟨r, hr, rfl⟩
  have ht : t ≠ [] := by rintro rfl; cases hr
  have h1 : minDate t ≤ r.date := minDate_le t r hr
  have h2 : r.date ≤ maxDate t := le_maxDate t r hr
  refine ⟨r.date - minDate t, by unfold numDays; omega, ?_⟩
  have : minDate t + (r.date - minDate t) = r.date := by omega
  rw [this]
  exact rawLookup_isSome t hv r hr

theorem lastNonNone_isSome (t : List Row) (hv : ∀ r ∈ t, (r.views).isSome)
    (a : Nat) (ha : a ∈ articlesOf t) :
    (lastNonNone (articleSeriesFilled t a)).isSome := by
  rw [lastNonNone_articleSeriesFilled]
  rcases exists_some_cell t hv a ha with ⟨j, hj, hsome⟩
  rcases hcell : rawLookup t a (minDate t + j) with _ | w
  · rw [hcell] at hsome; cases hsome
  · rcases hscan : scanBack (fun j => rawLookup t a (minDate t + j)) (numDays t)
      with _ | x
    · have := (scanBack_eq_none _ _).mp hscan j hj
      rw [this] at hcell; cases hcell
    · rfl

theorem filterMap_option_pair_fst (l : List Nat) (h : Nat → Option Nat)
    (htot : ∀ a ∈ l, (h a).isSome) :
    (l.filterMap (fun a => (h a).map (fun v => (a, v)))).map Prod.fst = l := by
  induction l with
  | nil => rfl
  | cons a l ih =>
    have ha : (h a).isSome := htot a (List.mem_cons_self a l)
    rcases hha : h a with _ | v
    · rw [hha] at ha; cases ha
    · simp only [List.filterMap_cons, hha, Option.map_some', List.map_cons]
      rw [ih (fun b hb => htot b (List.mem_cons_of_mem a hb))]

theorem lastValues_map_fst (t : List Row) (hv : ∀ r ∈ t, (r.views).isSome) :
    (lastValues t).map Prod.fst = sortedArticles t :=
  filterMap_option_pair_fst (sortedArticles t)
    (fun a => lastNonNone (articleSeriesFilled t a))
    (fun a ha => lastNonNone_isSome t hv a
      ((List.mem_insertionSort (· ≤ ·)).mp ha))

theorem length_lastValues (t : List Row) (hv : ∀ r ∈ t, (r.views).isSome) :
    (lastValues t).length = (articlesOf t).length := by
  have h := congrArg List.length (lastValues_map_fst t hv)
  simpa [sortedArticles] using h

theorem mem_lastValues (t : List Row) (p : Nat × Nat) (hp : p ∈ lastValues t) :
    p.1 ∈ articlesOf t ∧ lastNonNone (articleSeriesFilled t p.1) = some p.2 := by
  rcases List.mem_filterMap.mp hp with ⟨a, ha, heq⟩
  rcases hlast : lastNonNone (articleSeriesFilled t a) with _ | v
  · rw [hlast] at heq; cases heq
  · rw [hlast] at heq
    simp only [Option.map_some'] at heq
    cases heq
    exact ⟨(List.mem_insertionSort (· ≤ ·)).mp ha, hlast⟩

theorem nodup_sortedArticles (t : List Row) : (sortedArticles t).Nodup :=
  ((List.perm_insertionSort (· ≤ ·) (articlesOf t)).nodup_iff).mpr
    (nodup_articlesOf t)

theorem lastNonNone_eq_last_cell (t : List Row) (a : Nat) (ht : t ≠ []) :
    lastNonNone (articleSeriesFilled t a) =
      (articleSeriesFilled t a).getD (numDays t - 1) none := by
  have hn : 0 < numDays t := numDays_pos t ht
  have hidx : numDays t - 1 < numDays t := by omega
  rw [articleSeriesFilled_getD t a _ hidx, lastNonNone_articleSeriesFilled]
  congr 1
  omega

/-! ### Claim C1 -/

/-- **C1**: normalization forward-fills the views column per article in
chronological order.  For every raw table, the dense cell of article `a` at
day-offset `i` holds `some v` exactly when `v` is the raw value at the
nearest prior (or same) day of the range carrying a raw observation of that
article, and holds `none` exactly when the article has no raw observation at
or before that day (so leading entries stay missing).  In particular a single
article observed on days 1 and 3 of a 3-day window with views 10 and 30
normalizes to the series [10, 10, 30]. -/
theorem c1_forward_fill (t : List Row) (a i : Nat) (h : i < numDays t) :
    ((∀ v, (articleSeriesFilled t a).getD i none = some v ↔
        ∃ j, j ≤ i ∧ rawLookup t a (minDate t + j) = some v ∧
          ∀ k, j < k → k ≤ i → rawLookup t a (minDate t + k) = none) ∧
      ((articleSeriesFilled t a).getD i none = none ↔
        ∀ j, j ≤ i → rawLookup t a (minDate t + j) = none)) ∧
    (articleSeriesFilled exSingle 0 = [some 10, some 10, some 30] ∧
      processWikiData exSingle =
        [⟨0, some 10, 1⟩, ⟨0, some 10, 2⟩, ⟨0, some 30, 3⟩]) :=
  ⟨⟨fun v => series_some_iff t a i h v, series_none_iff t a i h⟩,
    by decide, by decide⟩

/-- Witness for C1, instantiated at the 3-day single-article table. -/
theorem c1_forward_fill_witness :
    1 < numDays exSingle ∧
      (((∀ v, (articleSeriesFilled exSingle 0).getD 1 none = some v ↔
          ∃ j, j ≤ 1 ∧ rawLookup exSingle 0 (minDate exSingle + j) = some v ∧
            ∀ k, j < k → k ≤ 1 → rawLookup exSingle 0 (minDate exSingle + k) = none) ∧
        ((articleSeriesFilled exSingle 0).getD 1 none = none ↔
          ∀ j, j ≤ 1 → rawLookup exSingle 0 (minDate exSingle + j) = none)) ∧
      (articleSeriesFilled exSingle 0 = [some 10, some 10, some 30] ∧
        processWikiData exSingle =
          [⟨0, some 10, 1⟩, ⟨0, some 10, 2⟩, ⟨0, some 30, 3⟩])) :=
  ⟨by decide, c1_forward_fill exSingle 0 1 (by decide)⟩

/-! ### Claim C10 -/

/-- **C10**: on every collector-produced raw table (each row carries a view
count), after normalization every article's forward-filled value at the
latest date is non-missing; hence the last-value key of the top-N selection
is defined for every article (`last_values` has exactly one entry per
article); and the only missing values of the dense table are leading entries
before an article's first observation. -/
theorem c10_top_key_defined (t : List Row) (hv : ∀ r ∈ t, (r.views).isSome) :
    (∀ a ∈ articlesOf t,
        ((articleSeriesFilled t a).getD (numDays t - 1) none).isSome) ∧
    ((lastValues t).map Prod.fst = sortedArticles t) ∧
    (∀ a ∈ articlesOf t, ∀ i, i < numDays t →
      (articleSeriesFilled t a).getD i none = none →
      ∀ j, j ≤ i → rawLookup t a (minDate t + j) = none) := by
  refine ⟨?_, ?_, ?_⟩
  · intro a ha
    have ht : t ≠ [] := by
      rcases (mem_articlesOf t a).mp ha with ⟨r, hr, _⟩
      rintro rfl; cases hr
    have hn : 0 < numDays t := numDays_pos t ht
    have hidx : numDays t - 1 < numDays t := by omega
    rw [articleSeriesFilled_getD t a _ hidx]
    have : numDays t - 1 + 1 = numDays t := by omega
    rw [this, ← lastNonNone_articleSeriesFilled]
    exact lastNonNone_isSome t hv a ha
  · exact filterMap_option_pair_fst (sortedArticles t)
      (fun a => lastNonNone (articleSeriesFilled t a))
      (fun a ha => lastNonNone_isSome t hv a
        ((List.mem_insertionSort (· ≤ ·)).mp ha))
  · intro a _ i hi hnone
    exact (series_none_iff t a i hi).mp hnone

/-- Witness for C10 at the 3-day single-article table. -/
theorem c10_top_key_defined_witness :
    (∀ r ∈ exSingle, (r.views).isSome) ∧
      ((∀ a ∈ articlesOf exSingle,
          ((articleSeriesFilled exSingle a).getD (numDays exSingle - 1) none).isSome) ∧
      ((lastValues exSingle).map Prod.fst = sortedArticles exSingle) ∧
      (∀ a ∈ articlesOf exSingle, ∀ i, i < numDays exSingle →
        (articleSeriesFilled exSingle a).getD i none = none →
        ∀ j, j ≤ i → rawLookup exSingle a (minDate exSingle + j) = none)) :=
  ⟨by decide, c10_top_key_defined exSingle (by decide)⟩

/-! ### Claim C2 -/

/-- **C2**: the top-N selection returns exactly `min(N, d)` articles
(`d` = number of distinct articles), without repetition; its entries are
listed in descending order of last-known value; the key it ranks by is the
forward-filled value at the latest date; and every selected article's
last-known value is at least every rejected article's last-known value. -/
theorem c2_top_selection (t : List Row) (N : Nat)
    (hv : ∀ r ∈ t, (r.views).isSome) :
    ((topArticlesN t N).length = min N (articlesOf t).length) ∧
    (topArticlesN t N).Nodup ∧
    List.Sorted (fun x y => y ≤ x) ((nlargest N (lastValues t)).map Prod.snd) ∧
    (∀ a ∈ articlesOf t,
      lastNonNone (articleSeriesFilled t a) =
        (articleSeriesFilled t a).getD (numDays t - 1) none) ∧
    (∀ a b va vb, a ∈ topArticlesN t N → b ∈ articlesOf t →
      b ∉ topArticlesN t N →
      lastNonNone (articleSeriesFilled t a) = some va →
      lastNonNone (articleSeriesFilled t b) = some vb → vb ≤ va) := by
  have hsorted : List.Sorted descVal (List.insertionSort descVal (lastValues t)) :=
    List.sorted_insertionSort descVal (lastValues t)
  have hperm : (List.insertionSort descVal (lastValues t)).Perm (lastValues t) :=
    List.perm_insertionSort descVal (lastValues t)
  refine ⟨?_, ?_, ?_, ?_, ?_⟩
  · rw [topArticlesN, nlargest, List.length_map, List.length_take,
      List.length_insertionSort, length_lastValues t hv]
  · have hfst : ((List.insertionSort descVal (lastValues t)).map Prod.fst).Nodup := by
      have hp : ((List.insertionSort descVal (lastValues t)).map Prod.fst).Perm
          ((lastValues t).map Prod.fst) := hperm.map Prod.fst
      rw [hp.nodup_iff, lastValues_map_fst t hv]
      exact nodup_sortedArticles t
    have hsub : (topArticlesN t N).Sublist
        ((List.insertionSort descVal (lastValues t)).map Prod.fst) := by
      rw [topArticlesN, nlargest]
      exact List.Sublist.map Prod.fst (List.take_sublist N _)
    exact hsub.nodup hfst
  · have hpair : List.Pairwise descVal (nlargest N (lastValues t)) :=
      List.Pairwise.sublist (List.take_sublist N _) hsorted
    exact (List.pairwise_map).mpr hpair
  · intro a ha
    have ht : t ≠ [] := by
      rcases (mem_articlesOf t a).mp ha with ⟨r, hr, _⟩
      rintro rfl; cases hr
    exact lastNonNone_eq_last_cell t a ht
  · intro a b va vb hatop hb hbtop hla hlb
    set sorted := List.insertionSort descVal (lastValues t) with hsortdef
    have hdecomp : sorted.take N ++ sorted.drop N = sorted := List.take_append_drop N sorted
    have hcross : ∀ p ∈ sorted.take N, ∀ q ∈ sorted.drop N, descVal p q := by
      have := hsorted
      rw [← hdecomp] at this
      exact (List.pairwise_append.mp this).2.2
    rcases List.mem_map.mp hatop with ⟨p, hpmem, hpa⟩
    have hpval : lastNonNone (articleSeriesFilled t p.1) = some p.2 :=
      (mem_lastValues t p (hperm.mem_iff.mp (List.mem_of_mem_take hpmem))).2
    have hpva : p.2 = va := by
      rw [hpa] at hpval
      rw [hla] at hpval
      exact (Option.some_injective _ hpval).symm
    have hbfst : b ∈ (lastValues t).map Prod.fst := by
      rw [lastValues_map_fst t hv, sortedArticles, List.mem_insertionSort]
      exact hb
    rcases List.mem_map.mp hbfst with ⟨q, hqmem, hqb⟩
    have hqval : lastNonNone (articleSeriesFilled t q.1) = some q.2 :=
      (mem_lastValues t q hqmem).2
    have hqvb : q.2 = vb := by
      rw [hqb] at hqval
      rw [hlb] at hqval
      exact (Option.some_injective _ hqval).symm
    have hqsorted : q ∈ sorted := hperm.mem_iff.mpr hqmem
    have hqdrop : q ∈ sorted.drop N := by
      rcases (List.mem_append.mp (hdecomp ▸ hqsorted)) with hq | hq
      · exfalso
        apply hbtop
        rw [topArticlesN, nlargest, ← hsortdef]
        exact hqb ▸ List.mem_map_of_mem Prod.fst hq
      · exact hq
    have := hcross p hpmem q hqdrop
    rw [descVal, hpva, hqvb] at this
    exact this

/-! ### Claim C5 -/

/-- **C5**: every row of the collector's output carries a date inside
`[start, end]`, and no row carries a date for which the API client returned
no data. -/
theorem c5_rows_in_range (fetch : Nat → Option (List (Nat × Nat))) (s e : Nat)
    (rows : List Row) (h : collectWikiData fetch s e = Except.ok rows) :
    ∀ r ∈ rows, s ≤ r.date ∧ r.date ≤ e ∧ fetch r.date ≠ none := by
  simp only [collectWikiData] at h
  split at h
  · cases h
  · cases h
    intro r hr
    rcases List.mem_flatMap.mp hr with ⟨d, hd, hrd⟩
    have hdb := List.mem_range'_1.mp hd
    unfold dayRows at hrd
    rcases hf : fetch d with _ | arts
    · rw [hf] at hrd; cases hrd
    · rw [hf] at hrd
      rcases List.mem_map.mp hrd with ⟨p, _, rfl⟩
      dsimp only
      refine ⟨by omega, by omega, ?_⟩
      rw [hf]
      exact fun hc => Option.noConfusion hc

/-- Witness for C5: a two-day range in which the first day returns one
article and the second returns nothing. -/
theorem c5_rows_in_range_witness :
    collectWikiData (fun d => if d = 1 then some [(7, 40)] else none) 1 2 =
        Except.ok [⟨7, some 40, 1⟩] ∧
      ∀ r ∈ [(⟨7, some 40, 1⟩ : Row)], 1 ≤ r.date ∧ r.date ≤ 2 ∧
        (fun d => if d = 1 then some [(7, 40)] else none) r.date ≠ none :=
  ⟨rfl,
    c5_rows_in_range (fun d => if d = 1 then some [(7, 40)] else none) 1 2
      [⟨7, some 40, 1⟩] rfl⟩

/-! ### Claim C6 -/

/-- **C6**: a day whose API call fails (or yields an empty article list)
contributes zero rows without aborting the run, and the collector raises
its data-availability error exactly when every day of the range yielded no
usable rows. -/
theorem c6_error_iff_all_days_empty (fetch : Nat → Option (List (Nat × Nat)))
    (s e : Nat) :
    (∃ msg, collectWikiData fetch s e = Except.error msg) ↔
      ∀ d, s ≤ d → d ≤ e → fetch d = none ∨ fetch d = some [] := by
  simp only [collectWikiData]
  constructor
  · rintro ⟨msg, hmsg⟩
    split at hmsg
    case isTrue hempty =>
      intro d hsd hde
      have hd : d ∈ List.range' s (e + 1 - s) := List.mem_range'_1.mpr ⟨hsd, by omega⟩
      have hnil := List.flatMap_eq_nil_iff.mp (List.isEmpty_iff.mp hempty) d hd
      unfold dayRows at hnil
      rcases hf : fetch d with _ | arts
      · exact Or.inl rfl
      · rw [hf] at hnil
        rcases List.map_eq_nil_iff.mp hnil with rfl
        exact Or.inr rfl
    case isFalse => cases hmsg
  · intro hall
    have hnil : (List.range' s (e + 1 - s)).flatMap (dayRows fetch) = [] := by
      apply List.flatMap_eq_nil_iff.mpr
      intro d hd
      have hdb := List.mem_range'_1.mp hd
      unfold dayRows
      rcases hall d hdb.1 (by omega) with hf | hf <;> rw [hf]
      rfl
    rw [hnil]
    exact ⟨"no data collected", rfl⟩

/-- Witness for C6 (iff instantiated at a range where every day fails). -/
theorem c6_error_iff_all_days_empty_witness :
    ∃ msg, collectWikiData (fun _ => none) 1 2 = Except.error msg :=
  (c6_error_iff_all_days_empty (fun _ => none) 1 2).mpr
    (fun _ _ _ => Or.inl rfl)

/-! ### Claim C7 -/

/-- **C7**: when the parsed start date is after the end date, or strictly in
the future, the run stops with a validation error and performs no network
call (the call trace is empty). -/
theorem c7_validation_before_network (fetch : Nat → Option (List (Nat × Nat)))
    (now s e : Nat) (h : e < s ∨ now < s) :
    ∃ msg, mainRun fetch now s e = (Except.error msg, []) := by
  by_cases h1 : e < s
  · exact ⟨"start date after end date", by simp [mainRun, validateDates, h1]⟩
  · have h2 : now < s := h.resolve_left h1
    exact ⟨"start date in the future", by simp [mainRun, validateDates, h1, h2]⟩

/-- Witness for C7: start day 1, end day 0, current time 0. -/
theorem c7_validation_before_network_witness :
    ((0 : Nat) < 1 ∨ (0 : Nat) < 1) ∧
      ∃ msg, mainRun (fun _ => none) 0 1 0 = (Except.error msg, []) :=
  ⟨Or.inl (by decide),
    c7_validation_before_network (fun _ => none) 0 1 0 (Or.inl (by decide))⟩

/-! ### Claim C4 -/

theorem maxViews_ge (t : List Row) (r : Row) (hr : r ∈ t) (v : Nat)
    (hrv : r.views = some v) : v ≤ maxViews t := by
  unfold maxViews
  exact foldl_max_le_mem _ 0 v (List.mem_filterMap.mpr ⟨r, hr, hrv⟩)

theorem maxViews_mem (t : List Row) (ht : t ≠ [])
    (hv : ∀ r ∈ t, (r.views).isSome) :
    ∃ r ∈ t, r.views = some (maxViews t) := by
  have hnil : t.filterMap (fun r => r.views) ≠ [] := by
    match t, ht with
    | r :: rs, _ =>
      have hs := hv r (List.mem_cons_self r rs)
      rcases hvr : r.views with _ | v
      · rw [hvr] at hs; cases hs
      · simp [List.filterMap_cons, hvr]
  have hmem : maxViews t ∈ t.filterMap (fun r => r.views) := by
    rcases foldl_max_mem (t.filterMap (fun r => r.views)) 0 with h | h
    · rcases hl : t.filterMap (fun r => r.views) with _ | ⟨x, xs⟩
      · exact absurd hl hnil
      · have hx : x ≤ maxViews t := by
          unfold maxViews
          exact foldl_max_le_mem _ 0 x (by rw [hl]; exact List.mem_cons_self x xs)
        have hm0 : maxViews t = 0 := by unfold maxViews; rw [hl] at h ⊢; exact h
        have hx0 : x = 0 := by omega
        rw [hl, hm0, ← hx0]
        exact List.mem_cons_self x xs
    · exact h
  rcases List.mem_filterMap.mp hmem with ⟨r, hr, hrv⟩
  exact ⟨r, hr, hrv⟩

/-- **C4**: the `maxViews` statistic is the largest view count of the entire
original raw table, whatever top table is passed alongside it — in
particular even when the article holding the maximum (article 1 of
`exOutlier`, with 100 views) is not in the selected top set. -/
theorem c4_global_max (t top : List Row) (ht : t ≠ [])
    (hv : ∀ r ∈ t, (r.views).isSome) :
    ((∀ r ∈ t, ∀ v, r.views = some v → v ≤ (calculateStatistics t top).2.1) ∧
      (∃ r ∈ t, r.views = some ((calculateStatistics t top).2.1))) ∧
    (topArticlesN exOutlier 1 = [0] ∧
      (1 : Nat) ∉ topArticlesN exOutlier 1 ∧
      maxViews exOutlier = 100 ∧
      (calculateStatistics exOutlier (processWikiDataN exOutlier 1)).2.1 = 100) := by
  refine ⟨⟨?_, ?_⟩, by decide, by decide, by decide, by decide⟩
  · intro r hr v hrv
    exact maxViews_ge t r hr v hrv
  · exact maxViews_mem t ht hv

/-- Witness for C4 at the outlier table. -/
theorem c4_global_max_witness :
    exOutlier ≠ [] ∧ (∀ r ∈ exOutlier, (r.views).isSome) ∧
      (((∀ r ∈ exOutlier, ∀ v, r.views = some v →
          v ≤ (calculateStatistics exOutlier (processWikiDataN exOutlier 1)).2.1) ∧
        (∃ r ∈ exOutlier, r.views =
          some ((calculateStatistics exOutlier (processWikiDataN exOutlier 1)).2.1))) ∧
      (topArticlesN exOutlier 1 = [0] ∧
        (1 : Nat) ∉ topArticlesN exOutlier 1 ∧
        maxViews exOutlier = 100 ∧
        (calculateStatistics exOutlier (processWikiDataN exOutlier 1)).2.1 = 100)) :=
  ⟨by decide, by decide,
    c4_global_max exOutlier (processWikiDataN exOutlier 1) (by decide) (by decide)⟩

/-! ### Claim C3 -/

theorem foldl_addOpt_some (l : List (Option Nat)) (s : Nat)
    (h : ∀ v ∈ l, v.isSome) :
    l.foldl addOpt (some s) = some (s + (l.filterMap id).sum) := by
  induction l generalizing s with
  | nil => simp
  | cons v vs ih =>
    rcases hv : v with _ | x
    · have := h v (List.mem_cons_self v vs)
      rw [hv] at this; cases this
    · simp only [List.foldl_cons, addOpt, List.filterMap_cons, hv, id_eq,
        List.sum_cons]
      rw [ih (s + x) (fun w hw => h w (List.mem_cons_of_mem v hw))]
      congr 1
      omega

theorem viewsSum_eq (top : List Row) (a : Nat)
    (hv : ∀ r ∈ top, (r.views).isSome) :
    viewsSum top a =
      some (((top.filter (fun r => r.article == a)).filterMap
        (fun r => r.views)).sum) := by
  unfold viewsSum
  rw [foldl_addOpt_some]
  · rw [Nat.zero_add]
    congr 1
    rw [List.filterMap_map]
    rfl
  · intro v hvmem
    rcases List.mem_map.mp hvmem with ⟨r, hrmem, rfl⟩
    exact hv r (List.mem_filter.mp hrmem).1

/-- **C3**: the statistics calculator computes each article's mean as the sum
of its recorded views over the number of its rows in the top table, and the
reported overall mean is the truncated mean of these per-article means (not a
views-weighted mean); in particular the raw dataset
{(A,100,day1), (B,50,day1), (A,120,day2)} with N = 2 reports the overall
mean 80. -/
theorem c3_mean_of_means (t top : List Row) (hv : ∀ r ∈ top, (r.views).isSome) :
    ((calculateStatistics t top).1 =
      ratTrunc (((articlesOf top).map (fun a =>
          ((Nat.cast (((top.filter (fun r => r.article == a)).filterMap
            (fun r => r.views)).sum) : ℚ)) / (rowCount top a : ℚ))).sum /
        (((articlesOf top).length : ℚ)))) ∧
    (processWikiDataN exTwoDay 2 = exTwoDayTop ∧
      calculateStatistics exTwoDay (processWikiDataN exTwoDay 2) = (80, 120, 2)) := by
  constructor
  · have hfm : (articlesOf top).filterMap (fun a => meanOf top a) =
        (articlesOf top).map (fun a =>
          ((Nat.cast (((top.filter (fun r => r.article == a)).filterMap
            (fun r => r.views)).sum) : ℚ)) / (rowCount top a : ℚ)) := by
      rw [← List.filterMap_eq_map]
      apply List.filterMap_congr
      intro a _
      rw [meanOf, viewsSum_eq top a hv]
      rfl
    show nanmeanTrunc ((articlesOf top).filterMap (fun a => meanOf top a)) = _
    rw [hfm, nanmeanTrunc, List.length_map]
  · refine ⟨by decide, ?_⟩
    have h : processWikiDataN exTwoDay 2 = exTwoDayTop := by decide
    have ha : articlesOf exTwoDayTop = [0, 1] := by decide
    have hm0 : viewsSum exTwoDayTop 0 = some 220 := by decide
    have hc0 : rowCount exTwoDayTop 0 = 2 := by decide
    have hm1 : viewsSum exTwoDayTop 1 = some 100 := by decide
    have hc1 : rowCount exTwoDayTop 1 = 2 := by decide
    have hmax : maxViews exTwoDay = 120 := by decide
    have hu : (articlesOf exTwoDay).length = 2 := by decide
    rw [calculateStatistics, h, ha]
    simp only [List.filterMap_cons, List.filterMap_nil, meanOf, hm0, hc0, hm1,
      hc1, Option.map_some']
    rw [hmax, hu]
    norm_num [nanmeanTrunc, ratTrunc, List.sum_cons]

/-- Witness for C3 at the two-day dataset and its top table. -/
theorem c3_mean_of_means_witness :
    (∀ r ∈ exTwoDayTop, (r.views).isSome) ∧
      (((calculateStatistics exTwoDay exTwoDayTop).1 =
        ratTrunc (((articlesOf exTwoDayTop).map (fun a =>
            ((Nat.cast (((exTwoDayTop.filter (fun r => r.article == a)).filterMap
              (fun r => r.views)).sum) : ℚ)) / (rowCount exTwoDayTop a : ℚ))).sum /
          (((articlesOf exTwoDayTop).length : ℚ)))) ∧
      (processWikiDataN exTwoDay 2 = exTwoDayTop ∧
        calculateStatistics exTwoDay (processWikiDataN exTwoDay 2) =
          (80, 120, 2))) :=
  ⟨by decide, c3_mean_of_means exTwoDay exTwoDayTop (by decide)⟩

/-! ### Claim C8 -/

theorem attemptFrom_request_bounds (oracle : Nat → Attempt) :
    ∀ (fuel s i : Nat), Event.request i ∈ (attemptFrom oracle s fuel).2 →
      s ≤ i ∧ i < s + fuel := by
  intro fuel
  induction fuel with
  | zero =>
    intro s i h
    simp [attemptFrom] at h
  | succ f ih =>
    intro s i h
    rcases ho : oracle s with arts | _ | _
    · simp only [attemptFrom, ho, List.mem_singleton] at h
      rw [Event.request.injEq] at h
      omega
    · simp only [attemptFrom, ho, List.mem_cons] at h
      rcases h with h | h | h
      · rw [Event.request.injEq] at h; omega
      · simp at h
      · have := ih (s + 1) i h
        omega
    · by_cases hlt : s < MAX_RETRIES - 1
      · simp only [attemptFrom, ho, if_pos hlt, List.mem_cons] at h
        rcases h with h | h | h
        · rw [Event.request.injEq] at h; omega
        · simp at h
        · have := ih (s + 1) i h
          omega
      · simp only [attemptFrom, ho, if_neg hlt, List.mem_cons] at h
        rcases h with h | h
        · rw [Event.request.injEq] at h; omega
        · have := ih (s + 1) i h
          omega

theorem attemptFrom_request_count (oracle : Nat → Attempt) :
    ∀ (fuel s : Nat),
      ((attemptFrom oracle s fuel).2.filter Event.isRequest).length ≤ fuel := by
  intro fuel
  induction fuel with
  | zero => intro s; simp [attemptFrom]
  | succ f ih =>
    intro s
    rcases ho : oracle s with arts | _ | _
    · simp [attemptFrom, ho, Event.isRequest]
    · simp only [attemptFrom, ho, List.filter_cons]
      simp only [Event.isRequest, if_pos, if_neg, Bool.false_eq_true,
        List.length_cons]
      exact Nat.succ_le_succ (ih (s + 1))
    · by_cases hlt : s < MAX_RETRIES - 1
      · simp only [attemptFrom, ho, if_pos hlt, List.filter_cons]
        simp only [Event.isRequest, Bool.false_eq_true, List.length_cons]
        exact Nat.succ_le_succ (ih (s + 1))
      · simp only [attemptFrom, ho, if_neg hlt, List.filter_cons]
        simp only [Event.isRequest, List.length_cons]
        exact Nat.succ_le_succ (ih (s + 1))

theorem attemptFrom_starts_with_request (oracle : Nat → Attempt) (s f : Nat)
    (hf : 0 < f) :
    ∃ tl, (attemptFrom oracle s f).2 = Event.request s :: tl := by
  match f, hf with
  | f + 1, _ =>
    rcases ho : oracle s with arts | _ | _
    · exact ⟨[], by simp [attemptFrom, ho]⟩
    · exact ⟨Event.sleepFor (2 ^ s + 1) :: (attemptFrom oracle (s + 1) f).2,
        by simp [attemptFrom, ho]⟩
    · by_cases hlt : s < MAX_RETRIES - 1
      · exact ⟨Event.sleepFor 1 :: (attemptFrom oracle (s + 1) f).2,
          by simp [attemptFrom, ho, if_pos hlt]⟩
      · exact ⟨(attemptFrom oracle (s + 1) f).2,
          by simp [attemptFrom, ho, if_neg hlt]⟩

theorem attemptFrom_rateLimited_trace (oracle : Nat → Attempt) :
    ∀ (fuel s i : Nat), s + fuel = MAX_RETRIES →
      Event.request i ∈ (attemptFrom oracle s fuel).2 →
      oracle i = Attempt.rateLimited →
      ∃ pre suf, (attemptFrom oracle s fuel).2 =
          pre ++ Event.request i :: Event.sleepFor (2 ^ i + 1) :: suf ∧
        (i + 1 < MAX_RETRIES → ∃ tl, suf = Event.request (i + 1) :: tl) := by
  intro fuel
  induction fuel with
  | zero =>
    intro s i _ h
    simp [attemptFrom] at h
  | succ f ih =>
    intro s i hsf h hrate
    rcases ho : oracle s with arts | _ | _
    · simp only [attemptFrom, ho, List.mem_singleton] at h
      rw [Event.request.injEq] at h
      subst h
      rw [ho] at hrate; cases hrate
    · by_cases his : i = s
      · subst his
        refine ⟨[], (attemptFrom oracle (i + 1) f).2, by simp [attemptFrom, ho], ?_⟩
        intro hi
        have hfpos : 0 < f := by omega
        exact attemptFrom_starts_with_request oracle (i + 1) f hfpos
      · simp only [attemptFrom, ho, List.mem_cons] at h
        rcases h with h | h | h
        · rw [Event.request.injEq] at h; exact absurd h his
        · simp at h
        · rcases ih (s + 1) i (by omega) h hrate with ⟨pre, suf, hsplit, hnext⟩
          refine ⟨Event.request s :: Event.sleepFor (2 ^ s + 1) :: pre, suf, ?_, hnext⟩
          simp [attemptFrom, ho, hsplit]
    · by_cases his : i = s
      · subst his
        rw [ho] at hrate; cases hrate
      · by_cases hlt : s < MAX_RETRIES - 1
        · simp only [attemptFrom, ho, if_pos hlt, List.mem_cons] at h
          rcases h with h | h | h
          · rw [Event.request.injEq] at h; exact absurd h his
          · simp at h
          · rcases ih (s + 1) i (by omega) h hrate with ⟨pre, suf, hsplit, hnext⟩
            exact ⟨Event.request s :: Event.sleepFor 1 :: pre, suf,
              by simp [attemptFrom, ho, if_pos hlt, hsplit], hnext⟩
        · simp only [attemptFrom, ho, if_neg hlt, List.mem_cons] at h
          rcases h with h | h
          · rw [Event.request.injEq] at h; exact absurd h his
          · rcases ih (s + 1) i (by omega) h hrate with ⟨pre, suf, hsplit, hnext⟩
            exact ⟨Event.request s :: pre, suf,
              by simp [attemptFrom, ho, if_neg hlt, hsplit], hnext⟩

theorem attemptFrom_transport_trace (oracle : Nat → Attempt) :
    ∀ (fuel s i : Nat),
      Event.request i ∈ (attemptFrom oracle s fuel).2 →
      oracle i = Attempt.transportFail → i < MAX_RETRIES - 1 →
      ∃ pre suf, (attemptFrom oracle s fuel).2 =
        pre ++ Event.request i :: Event.sleepFor 1 :: suf := by
  intro fuel
  induction fuel with
  | zero =>
    intro s i h
    simp [attemptFrom] at h
  | succ f ih =>
    intro s i h htrans hlt'
    rcases ho : oracle s with arts | _ | _
    · simp only [attemptFrom, ho, List.mem_singleton] at h
      rw [Event.request.injEq] at h
      subst h
      rw [ho] at htrans; cases htrans
    · by_cases his : i = s
      · subst his
        rw [ho] at htrans; cases htrans
      · simp only [attemptFrom, ho, List.mem_cons] at h
        rcases h with h | h | h
        · rw [Event.request.injEq] at h; exact absurd h his
        · simp at h
        · rcases ih (s + 1) i h htrans hlt' with ⟨pre, suf, hsplit⟩
          exact ⟨Event.request s :: Event.sleepFor (2 ^ s + 1) :: pre, suf,
            by simp [attemptFrom, ho, hsplit]⟩
    · by_cases his : i = s
      · subst his
        refine ⟨[], (attemptFrom oracle (i + 1) f).2, ?_⟩
        simp [attemptFrom, ho, if_pos hlt']
      · by_cases hlt : s < MAX_RETRIES - 1
        · simp only [attemptFrom, ho, if_pos hlt, List.mem_cons] at h
          rcases h with h | h | h
          · rw [Event.request.injEq] at h; exact absurd h his
          · simp at h
          · rcases ih (s + 1) i h htrans hlt' with ⟨pre, suf, hsplit⟩
            exact ⟨Event.request s :: Event.sleepFor 1 :: pre, suf,
              by simp [attemptFrom, ho, if_pos hlt, hsplit]⟩
        · simp only [attemptFrom, ho, if_neg hlt, List.mem_cons] at h
          rcases h with h | h
          · rw [Event.request.injEq] at h; exact absurd h his
          · rcases ih (s + 1) i h htrans hlt' with ⟨pre, suf, hsplit⟩
            exact ⟨Event.request s :: pre, suf,
              by simp [attemptFrom, ho, if_neg hlt, hsplit]⟩

theorem attemptFrom_exhausted (oracle : Nat → Attempt) :
    ∀ (fuel s : Nat), (∀ i, s ≤ i → i < s + fuel → (oracle i).isOk = false) →
      (attemptFrom oracle s fuel).1 = none := by
  intro fuel
  induction fuel with
  | zero => intro s _; rfl
  | succ f ih =>
    intro s hfail
    rcases ho : oracle s with arts | _ | _
    · have := hfail s (Nat.le_refl s) (by omega)
      rw [ho] at this; cases this
    · simp only [attemptFrom, ho]
      exact ih (s + 1) (fun i h1 h2 => hfail i (by omega) (by omega))
    · by_cases hlt : s < MAX_RETRIES - 1
      · simp only [attemptFrom, ho, if_pos hlt]
        exact ih (s + 1) (fun i h1 h2 => hfail i (by omega) (by omega))
      · simp only [attemptFrom, ho, if_neg hlt]
        exact ih (s + 1) (fun i h1 h2 => hfail i (by omega) (by omega))

/-- **C8**: each per-day fetch makes at most `MAX_RETRIES = 3` attempts
(every attempt index is below 3); an HTTP 429 at attempt `i` is immediately
followed by a sleep of exactly `2 ^ i + 1` time units and, while budget
remains, by the next attempt of the same bounded loop; a transport failure
before the last attempt is immediately followed by a fixed 1-unit sleep;
and when every attempt fails the client returns `none` instead of raising. -/
theorem c8_retry_policy (oracle : Nat → Attempt) :
    (((getTopWikiArticles oracle).2.filter Event.isRequest).length ≤ MAX_RETRIES) ∧
    (∀ i, Event.request i ∈ (getTopWikiArticles oracle).2 → i < MAX_RETRIES) ∧
    (∀ i, Event.request i ∈ (getTopWikiArticles oracle).2 →
      oracle i = Attempt.rateLimited →
      ∃ pre suf, (getTopWikiArticles oracle).2 =
          pre ++ Event.request i :: Event.sleepFor (2 ^ i + 1) :: suf ∧
        (i + 1 < MAX_RETRIES → ∃ tl, suf = Event.request (i + 1) :: tl)) ∧
    (∀ i, Event.request i ∈ (getTopWikiArticles oracle).2 →
      oracle i = Attempt.transportFail → i < MAX_RETRIES - 1 →
      ∃ pre suf, (getTopWikiArticles oracle).2 =
        pre ++ Event.request i :: Event.sleepFor 1 :: suf) ∧
    ((∀ i, i < MAX_RETRIES → (oracle i).isOk = false) →
      (getTopWikiArticles oracle).1 = none) := by
  refine ⟨?_, ?_, ?_, ?_, ?_⟩
  · exact attemptFrom_request_count oracle MAX_RETRIES 0
  · intro i h
    have := attemptFrom_request_bounds oracle MAX_RETRIES 0 i h
    omega
  · intro i h hrate
    exact attemptFrom_rateLimited_trace oracle MAX_RETRIES 0 i rfl h hrate
  · intro i h htrans hlt
    exact attemptFrom_transport_trace oracle MAX_RETRIES 0 i h htrans hlt
  · intro hfail
    exact attemptFrom_exhausted oracle MAX_RETRIES 0
      (fun i h1 h2 => hfail i (by omega))

/-! ### Claim C9: structural lemmas about re-normalizing a normalized table -/

theorem map_fst_filterMap_pair (l : List Nat) (h : Nat → Option Nat) :
    (l.filterMap (fun a => (h a).map (fun v => (a, v)))).map Prod.fst =
      l.filter (fun a => (h a).isSome) := by
  induction l with
  | nil => rfl
  | cons a l ih =>
    rcases hha : h a with _ | v
    · simp only [List.filterMap_cons, hha, Option.map_none', List.filter_cons,
        Option.isSome_none, Bool.false_eq_true, if_neg, ite_false]
      exact ih
    · simp only [List.filterMap_cons, hha, Option.map_some', List.map_cons,
        List.filter_cons, Option.isSome_some, ite_true]
      rw [ih]

theorem lastValues_map_fst_filter (t : List Row) :
    (lastValues t).map Prod.fst =
      (sortedArticles t).filter
        (fun a => (lastNonNone (articleSeriesFilled t a)).isSome) :=
  map_fst_filterMap_pair (sortedArticles t)
    (fun a => lastNonNone (articleSeriesFilled t a))

theorem nodup_lastValues_fst (t : List Row) :
    ((lastValues t).map Prod.fst).Nodup := by
  rw [lastValues_map_fst_filter]
  exact (nodup_sortedArticles t).filter _

theorem nodup_topArticlesN (t : List Row) (N : Nat) :
    (topArticlesN t N).Nodup := by
  have hfst : ((List.insertionSort descVal (lastValues t)).map Prod.fst).Nodup := by
    have hp : ((List.insertionSort descVal (lastValues t)).map Prod.fst).Perm
        ((lastValues t).map Prod.fst) :=
      (List.perm_insertionSort descVal (lastValues t)).map Prod.fst
    exact hp.nodup_iff.mpr (nodup_lastValues_fst t)
  have hsub : (topArticlesN t N).Sublist
      ((List.insertionSort descVal (lastValues t)).map Prod.fst) := by
    rw [topArticlesN, nlargest]
    exact List.Sublist.map Prod.fst (List.take_sublist N _)
  exact hsub.nodup hfst

theorem mem_top_lastVal (t : List Row) (N : Nat) (a : Nat)
    (ha : a ∈ topArticlesN t N) :
    a ∈ articlesOf t ∧ ∃ v, lastNonNone (articleSeriesFilled t a) = some v := by
  rcases List.mem_map.mp ha with ⟨p, hp, rfl⟩
  have hmem : p ∈ lastValues t :=
    (List.perm_insertionSort descVal (lastValues t)).mem_iff.mp
      (List.mem_of_mem_take hp)
  have := mem_lastValues t p hmem
  exact ⟨this.1, p.2, this.2⟩

theorem flatMap_ite (l : List Nat) (p : Nat → Bool) (f : Nat → List Row) :
    (l.flatMap (fun a => if p a then f a else [])) = (l.filter p).flatMap f := by
  induction l with
  | nil => rfl
  | cons a l ih =>
    by_cases hpa : p a
    · simp only [List.flatMap_cons, List.filter_cons, hpa, ite_true, ih]
    · simp only [List.flatMap_cons, List.filter_cons, hpa, Bool.false_eq_true,
        ite_false, List.nil_append, ih]

theorem processWikiDataN_eq (t : List Row) (N : Nat) :
    processWikiDataN t N = (selArts t N).flatMap (blockOf t) := by
  unfold processWikiDataN normalizeDense selArts
  rw [List.filter_flatMap]
  have hpt : ∀ a, (blockOf t a).filter
      (fun r => (topArticlesN t N).contains r.article) =
      if (topArticlesN t N).contains a then blockOf t a else [] := by
    intro a
    unfold blockOf
    rw [List.filter_map]
    have hcomp : ((fun r : Row => (topArticlesN t N).contains r.article) ∘
        (fun i => Row.mk a ((articleSeriesFilled t a).getD i none)
          (minDate t + i))) = (fun _ => (topArticlesN t N).contains a) := rfl
    rw [hcomp]
    by_cases hc : (topArticlesN t N).contains a
    · rw [if_pos hc]
      have hfil : List.filter (fun _ : Nat => (topArticlesN t N).contains a)
          (List.range (numDays t)) = List.range (numDays t) :=
        List.filter_eq_self.mpr (fun _ _ => hc)
      rw [hfil]
    · rw [if_neg hc]
      have hfil : List.filter (fun _ : Nat => (topArticlesN t N).contains a)
          (List.range (numDays t)) = [] :=
        List.filter_eq_nil_iff.mpr (fun _ _ => hc)
      rw [hfil, List.map_nil]
  calc (articlesOf t).flatMap (fun a => (blockOf t a).filter
        (fun r => (topArticlesN t N).contains r.article))
      = (articlesOf t).flatMap (fun a =>
          if (topArticlesN t N).contains a then blockOf t a else []) :=
        List.flatMap_congr (fun a _ => hpt a)
    _ = ((articlesOf t).filter (fun a => (topArticlesN t N).contains a)).flatMap
          (blockOf t) := flatMap_ite _ _ _

theorem map_article_blockOf (t : List Row) (a : Nat) :
    (blockOf t a).map (fun r => r.article) = List.replicate (numDays t) a := by
  unfold blockOf
  rw [List.map_map]
  have hcomp : ((fun r : Row => r.article) ∘
      (fun i => Row.mk a ((articleSeriesFilled t a).getD i none)
        (minDate t + i))) = (fun _ => a) := rfl
  rw [hcomp, List.map_const', List.length_range]

theorem articlesOf_flatMap_blocks (t : List Row) (as : List Nat)
    (hnd : as.Nodup) (hn : 0 < numDays t) :
    articlesOf (as.flatMap (blockOf t)) = as := by
  unfold articlesOf
  rw [List.map_flatMap]
  have hrepl : ∀ a ∈ as, (blockOf t a).map (fun r => r.article) =
      List.replicate (numDays t) a := fun a _ => map_article_blockOf t a
  rw [List.flatMap_congr hrepl]
  exact uniqueFirst_flatMap_replicate (numDays t) (by omega) as hnd

theorem mem_blockOf (t : List Row) (a : Nat) (r : Row) :
    r ∈ blockOf t a ↔ ∃ i, i < numDays t ∧
      r = ⟨a, (articleSeriesFilled t a).getD i none, minDate t + i⟩ := by
  unfold blockOf
  rw [List.mem_map]
  constructor
  · rintro ⟨i, hi, rfl⟩
    exact ⟨i, List.mem_range.mp hi, rfl⟩
  · rintro ⟨i, hi, rfl⟩
    exact ⟨i, List.mem_range.mpr hi, rfl⟩

theorem minDate_flatMap_blocks (t : List Row) (as : List Nat)
    (has : as ≠ []) (hn : 0 < numDays t) :
    minDate (as.flatMap (blockOf t)) = minDate t := by
  have hfirst : (⟨as.head has, (articleSeriesFilled t (as.head has)).getD 0 none,
      minDate t + 0⟩ : Row) ∈ as.flatMap (blockOf t) :=
    List.mem_flatMap.mpr ⟨as.head has, List.head_mem has,
      (mem_blockOf t _ _).mpr ⟨0, hn, rfl⟩⟩
  apply minDate_eq
  · exact List.ne_nil_of_mem hfirst
  · exact ⟨_, hfirst, rfl⟩
  · intro r hr
    rcases List.mem_flatMap.mp hr with ⟨a, _, hra⟩
    rcases (mem_blockOf t a r).mp hra with ⟨i, hi, rfl⟩
    dsimp only
    omega

theorem maxDate_flatMap_blocks (t : List Row) (as : List Nat)
    (has : as ≠ []) (hn : 0 < numDays t) :
    maxDate (as.flatMap (blockOf t)) = maxDate t := by
  have hmax : minDate t + (numDays t - 1) = maxDate t := by
    unfold numDays at hn ⊢
    omega
  have hlastrow : (⟨as.head has,
      (articleSeriesFilled t (as.head has)).getD (numDays t - 1) none,
      minDate t + (numDays t - 1)⟩ : Row) ∈ as.flatMap (blockOf t) :=
    List.mem_flatMap.mpr ⟨as.head has, List.head_mem has,
      (mem_blockOf t _ _).mpr ⟨numDays t - 1, by omega, rfl⟩⟩
  apply maxDate_eq
  · exact List.ne_nil_of_mem hlastrow
  · exact ⟨_, hlastrow, by dsimp only; omega⟩
  · intro r hr
    rcases List.mem_flatMap.mp hr with ⟨a, _, hra⟩
    rcases (mem_blockOf t a r).mp hra with ⟨i, hi, rfl⟩
    dsimp only
    unfold numDays at hi hn
    omega

theorem numDays_flatMap_blocks (t : List Row) (as : List Nat)
    (has : as ≠ []) (hn : 0 < numDays t) :
    numDays (as.flatMap (blockOf t)) = numDays t := by
  unfold numDays
  rw [minDate_flatMap_blocks t as has hn, maxDate_flatMap_blocks t as has hn]

theorem find?_range'_first (q : Nat → Bool) :
    ∀ (n s i : Nat), s ≤ i → i < s + n → q i = true →
      (∀ k, s ≤ k → k < i → q k = false) →
      (List.range' s n).find? q = some i := by
  intro n
  induction n with
  | zero =>
    intro s i h1 h2 _ _
    omega
  | succ m ih =>
    intro s i h1 h2 hq hfirst
    rw [List.range'_succ]
    by_cases hsi : s = i
    · subst hsi
      simp only [List.find?_cons, hq]
    · have hqs : q s = false := hfirst s (Nat.le_refl s) (by omega)
      simp only [List.find?_cons, hqs]
      exact ih (s + 1) i (by omega) (by omega) hq
        (fun k hk1 hk2 => hfirst k (by omega) hk2)

theorem find?_range_first (q : Nat → Bool) (n i : Nat) (hi : i < n)
    (hq : q i = true) (hfirst : ∀ k, k < i → q k = false) :
    (List.range n).find? q = some i := by
  rw [List.range_eq_range']
  exact find?_range'_first q n 0 i (Nat.zero_le i) (by omega) hq
    (fun k _ hk => hfirst k hk)

theorem find?_blockOf_ne (t : List Row) (a b d : Nat) (hab : b ≠ a) :
    (blockOf t b).find? (fun r => r.article == a && r.date == d) = none := by
  apply List.find?_eq_none.mpr
  intro r hr
  rcases (mem_blockOf t b r).mp hr with ⟨i, _, rfl⟩
  simp [hab]

theorem find?_blockOf_self (t : List Row) (a i : Nat) (hi : i < numDays t) :
    (blockOf t a).find? (fun r => r.article == a && r.date == minDate t + i) =
      some ⟨a, (articleSeriesFilled t a).getD i none, minDate t + i⟩ := by
  unfold blockOf
  rw [List.find?_map]
  have hq : (List.range (numDays t)).find?
      ((fun r : Row => r.article == a && r.date == minDate t + i) ∘
        (fun j => Row.mk a ((articleSeriesFilled t a).getD j none)
          (minDate t + j))) = some i := by
    apply find?_range_first _ _ i hi
    · simp
    · intro k hk
      simp [show minDate t + k ≠ minDate t + i by omega]
  rw [hq]
  rfl

theorem rawLookup_flatMap_blocks (t : List Row) (as : List Nat) :
    ∀ (a : Nat), a ∈ as → as.Nodup → ∀ (i : Nat), i < numDays t →
      rawLookup (as.flatMap (blockOf t)) a (minDate t + i) =
        (articleSeriesFilled t a).getD i none := by
  induction as with
  | nil =>
    intro a ha
    cases ha
  | cons b bs ih =>
    intro a ha hnd i hi
    unfold rawLookup
    rw [List.flatMap_cons, List.find?_append]
    by_cases hab : a = b
    · subst hab
      rw [find?_blockOf_self t a i hi, Option.or_some]
    · have ha' : a ∈ bs := by
        rcases List.mem_cons.mp ha with h | h
        · exact absurd h hab
        · exact h
      rw [find?_blockOf_ne t a b _ (fun h => hab h.symm), Option.none_or]
      have := ih a ha' (List.nodup_cons.mp hnd).2 i hi
      unfold rawLookup at this
      exact this

theorem map_getD_range (l : List (Option Nat)) :
    (List.range l.length).map (fun i => l.getD i none) = l := by
  apply List.ext_getElem
  · simp
  · intro i h1 h2
    simp only [List.getElem_map, List.getElem_range]
    exact List.getD_eq_getElem l none h2

theorem articleSeriesFilled_flatMap_blocks (t : List Row) (as : List Nat)
    (a : Nat) (ha : a ∈ as) (hnd : as.Nodup) (hn : 0 < numDays t) :
    articleSeriesFilled (as.flatMap (blockOf t)) a = articleSeriesFilled t a := by
  have has : as ≠ [] := List.ne_nil_of_mem ha
  have hstep : (List.range (numDays (as.flatMap (blockOf t)))).map
      (fun i => rawLookup (as.flatMap (blockOf t)) a
        (minDate (as.flatMap (blockOf t)) + i)) = articleSeriesFilled t a := by
    rw [numDays_flatMap_blocks t as has hn, minDate_flatMap_blocks t as has hn]
    have hcong : ∀ i ∈ List.range (numDays t),
        rawLookup (as.flatMap (blockOf t)) a (minDate t + i) =
          (articleSeriesFilled t a).getD i none := by
      intro i hi
      exact rawLookup_flatMap_blocks t as a ha hnd i (List.mem_range.mp hi)
    rw [List.map_congr_left hcong, ← length_articleSeriesFilled t a]
    exact map_getD_range _
  show ffillAux none _ = _
  rw [hstep]
  unfold articleSeriesFilled
  exact ffillAux_idem _ none

theorem blockOf_flatMap_blocks (t : List Row) (as : List Nat)
    (a : Nat) (ha : a ∈ as) (hnd : as.Nodup) (hn : 0 < numDays t) :
    blockOf (as.flatMap (blockOf t)) a = blockOf t a := by
  have has : as ≠ [] := List.ne_nil_of_mem ha
  have h1 := numDays_flatMap_blocks t as has hn
  have h2 := minDate_flatMap_blocks t as has hn
  have h3 := articleSeriesFilled_flatMap_blocks t as a ha hnd hn
  set out := as.flatMap (blockOf t) with hout
  unfold blockOf
  rw [h1, h2, h3]

theorem contains_iff_mem_nat (l : List Nat) (a : Nat) :
    l.contains a = true ↔ a ∈ l := by
  simp [List.contains, List.elem_iff]

theorem selArts_perm_topArticlesN (t : List Row) (N : Nat) :
    (selArts t N).Perm (topArticlesN t N) := by
  apply (List.perm_ext_iff_of_nodup ((nodup_articlesOf t).filter _)
    (nodup_topArticlesN t N)).mpr
  intro a
  rw [List.mem_filter]
  constructor
  · rintro ⟨_, hc⟩
    exact (contains_iff_mem_nat _ a).mp hc
  · intro ha
    exact ⟨(mem_top_lastVal t N a ha).1, (contains_iff_mem_nat _ a).mpr ha⟩

theorem topArticlesN_flatMap_perm (t : List Row) (N : Nat)
    (hn : 0 < numDays t) :
    (topArticlesN ((selArts t N).flatMap (blockOf t)) N).Perm (selArts t N) := by
  have hnd : (selArts t N).Nodup := (nodup_articlesOf t).filter _
  have harts : articlesOf ((selArts t N).flatMap (blockOf t)) = selArts t N :=
    articlesOf_flatMap_blocks t _ hnd hn
  have hsorted : sortedArticles ((selArts t N).flatMap (blockOf t)) =
      List.insertionSort (· ≤ ·) (selArts t N) := by
    unfold sortedArticles
    rw [harts]
  have hselmem : ∀ a ∈ selArts t N, a ∈ topArticlesN t N := by
    intro a ha
    exact (contains_iff_mem_nat _ a).mp (List.mem_filter.mp ha).2
  have hlv : lastValues ((selArts t N).flatMap (blockOf t)) =
      (List.insertionSort (· ≤ ·) (selArts t N)).filterMap
        (fun a => (lastNonNone (articleSeriesFilled t a)).map
          (fun v => (a, v))) := by
    unfold lastValues
    rw [hsorted]
    apply List.filterMap_congr
    intro a ha
    rw [articleSeriesFilled_flatMap_blocks t (selArts t N) a
      ((List.mem_insertionSort _).mp ha) hnd hn]
  have htot : ∀ a ∈ List.insertionSort (· ≤ ·) (selArts t N),
      (lastNonNone (articleSeriesFilled t a)).isSome := by
    intro a ha
    have hmem : a ∈ selArts t N := (List.mem_insertionSort _).mp ha
    rcases (mem_top_lastVal t N a (hselmem a hmem)).2 with ⟨v, hv⟩
    rw [hv]; rfl
  have hfst : (lastValues ((selArts t N).flatMap (blockOf t))).map Prod.fst =
      List.insertionSort (· ≤ ·) (selArts t N) := by
    rw [hlv]
    exact filterMap_option_pair_fst _ _ htot
  have hlen : (lastValues ((selArts t N).flatMap (blockOf t))).length =
      (selArts t N).length := by
    have hc := congrArg List.length hfst
    simpa using hc
  have hlenN : (selArts t N).length ≤ N := by
    rw [(selArts_perm_topArticlesN t N).length_eq, topArticlesN, nlargest,
      List.length_map, List.length_take]
    exact Nat.min_le_left _ _
  have htake : (List.insertionSort descVal
      (lastValues ((selArts t N).flatMap (blockOf t)))).take N =
      List.insertionSort descVal
        (lastValues ((selArts t N).flatMap (blockOf t))) := by
    apply List.take_of_length_le
    rw [List.length_insertionSort, hlen]
    exact hlenN
  show ((nlargest N (lastValues ((selArts t N).flatMap (blockOf t)))).map
    Prod.fst).Perm (selArts t N)
  unfold nlargest
  rw [htake]
  have h1 : ((List.insertionSort descVal
      (lastValues ((selArts t N).flatMap (blockOf t)))).map Prod.fst).Perm
      ((lastValues ((selArts t N).flatMap (blockOf t))).map Prod.fst) :=
    (List.perm_insertionSort descVal _).map _
  rw [hfst] at h1
  exact h1.trans (List.perm_insertionSort _ _)

theorem processWikiDataN_nil (N : Nat) : processWikiDataN [] N = [] := rfl

theorem processWikiDataN_idem (t : List Row) (N : Nat) :
    processWikiDataN (processWikiDataN t N) N = processWikiDataN t N := by
  by_cases hout : processWikiDataN t N = []
  · rw [hout]
    exact processWikiDataN_nil N
  · have hn : 0 < numDays t := by
      by_contra h
      apply hout
      rw [processWikiDataN_eq]
      apply List.flatMap_eq_nil_iff.mpr
      intro a _
      show (List.range (numDays t)).map _ = []
      have h0 : numDays t = 0 := by omega
      rw [h0]
      rfl
    have hnd : (selArts t N).Nodup := (nodup_articlesOf t).filter _
    rw [processWikiDataN_eq t N,
      processWikiDataN_eq ((selArts t N).flatMap (blockOf t)) N]
    have hperm := topArticlesN_flatMap_perm t N hn
    have hselout : selArts ((selArts t N).flatMap (blockOf t)) N = selArts t N := by
      show (articlesOf ((selArts t N).flatMap (blockOf t))).filter
        (fun a => (topArticlesN ((selArts t N).flatMap (blockOf t)) N).contains a) =
          selArts t N
      rw [articlesOf_flatMap_blocks t (selArts t N) hnd hn]
      apply List.filter_eq_self.mpr
      intro a ha
      exact (contains_iff_mem_nat _ a).mpr (hperm.mem_iff.mpr ha)
    rw [hselout]
    apply List.flatMap_congr
    intro a ha
    exact blockOf_flatMap_blocks t (selArts t N) a ha hnd hn

/-- **C9 (amended)**: normalization is idempotent up to its top-N
truncation: re-normalizing the output of `process_wiki_data` returns it
unchanged, for every input table.  (In particular an already-dense,
already-forward-filled table in the normalizer's article-major row order is
returned unchanged whenever it has at most `TOP_ARTICLES` distinct
articles, since it then equals its own normalization.) -/
theorem c9_normalize_idempotent (t : List Row) :
    processWikiData (processWikiData t) = processWikiData t :=
  processWikiDataN_idem t TOP_ARTICLES

/-- **C9 counterexample**: `exWide` is already dense (one row per
article-date combination of its one-day range, in grid order) and already
forward-filled — `normalizeDense` returns it unchanged — yet
`process_wiki_data` does not return it unchanged: it has 21 distinct
articles and the top-20 filter drops one of them. -/
theorem c9_counterexample :
    normalizeDense exWide = exWide ∧ processWikiData exWide ≠ exWide := by
  constructor
  · decide
  · decide

/-- Witness for C2 at the two-article two-day table with N = 2. -/
theorem c2_top_selection_witness :
    (∀ r ∈ exTwoDay, (r.views).isSome) ∧
      (((topArticlesN exTwoDay 2).length = min 2 (articlesOf exTwoDay).length) ∧
      (topArticlesN exTwoDay 2).Nodup ∧
      List.Sorted (fun x y => y ≤ x)
        ((nlargest 2 (lastValues exTwoDay)).map Prod.snd) ∧
      (∀ a ∈ articlesOf exTwoDay,
        lastNonNone (articleSeriesFilled exTwoDay a) =
          (articleSeriesFilled exTwoDay a).getD (numDays exTwoDay - 1) none) ∧
      (∀ a b va vb, a ∈ topArticlesN exTwoDay 2 → b ∈ articlesOf exTwoDay →
        b ∉ topArticlesN exTwoDay 2 →
        lastNonNone (articleSeriesFilled exTwoDay a) = some va →
        lastNonNone (articleSeriesFilled exTwoDay b) = some vb → vb ≤ va)) :=
  ⟨by decide, c2_top_selection exTwoDay 2 (by decide)⟩

end Wiki

